import Mathlib

/-!
# WireQuery — verification of the concurrency engine and the aggregator

Shallow embedding of `src/utils/concurrency.cpp` (the batched executor, its
cancelable variant, and the `ThreadPool`) and of `src/usecases/aggregate.cpp`
(`aggregate_times`).  Executors are modelled by the trace of indices handed to
the unit of work; the cancelable variant threads an explicit state holding the
cancellation flag, the captured-failure slot, and the list of indices the unit
of work actually ran on.  Parallel waves are serialised by an arbitrary
schedule (the order in which units inside one wave acquire the locks);
theorems quantify over all schedules.  C `double` latencies are modelled as
`ℚ`; C `int` parameters as `ℤ`; exceptions as `ℕ` codes carried in `Option`.
-/

namespace WQ

/-! ## Definitions -/

/-! ### `for_each_index_batched` (src/utils/concurrency.cpp:14-41)

The executor is embedded as the list of waves it launches, each wave being the
ascending list of indices handed to `fn`.  `concurrency <= 1` runs indices
`1..total` sequentially (singleton waves); otherwise the loop repeatedly takes
`batch = min concurrency (total - (next - 1))` indices starting at `next`.
The C loop body is only entered with `concurrency >= 2`, so each iteration
consumes at least one index; `fuel = total` therefore bounds the number of
iterations, and the fuel-indexed recursion below computes exactly the C
loop's waves. -/

def wavesFrom (concurrency : ℕ) : ℕ → ℕ → ℕ → List (List ℕ)
  | 0, _, _ => []
  | fuel + 1, next, total =>
    if next ≤ total then
      let batch := min concurrency (total - (next - 1))
      List.range' next batch ::
        wavesFrom concurrency fuel (next + batch) total
    else []

def for_each_index_batched (total concurrency : ℤ) : List (List ℕ) :=
  if total ≤ 0 then []
  else if concurrency ≤ 1 then
    (List.range' 1 total.toNat).map (fun i => [i])
  else
    wavesFrom concurrency.toNat total.toNat 1 total.toNat

/-- The flat invocation sequence: waves concatenated in launch order. -/
def batchedIndices (total concurrency : ℤ) : List ℕ :=
  (for_each_index_batched total concurrency).flatten

/-! ### `for_each_index_batched_cancelable` (src/utils/concurrency.cpp:42-99)

The unit of work `fn(idx, flag)` is modelled by its observable behaviour at
each index: whether the body requests cancellation through the external
`Cancellation` token, and whether it throws (an error code).  The executor
state tracks the shared cancellation flag, the `first_ex` slot, and the
indices on which `fn`'s body actually ran (its side effects). -/

structure UnitAct where
  cancels : Bool
  throws : Option ℕ

structure CState where
  flag : Bool
  slot : Option ℕ
  ran : List ℕ
deriving DecidableEq

/-- `set_first_ex` (concurrency.cpp:54-58): store `ep` only while the slot is
empty; the lock acquisition order is the order in which this is applied. -/
def set_first_ex (slot : Option ℕ) (ep : Option ℕ) : Option ℕ :=
  match ep with
  | none => slot
  | some e =>
    match slot with
    | none => some e
    | some e0 => some e0

/-- `safe_call` (concurrency.cpp:61-69): re-check the flag at entry; run the
body; on throw, store the failure first-wins and set the flag. -/
def safe_call (u : ℕ → UnitAct) (s : CState) (idx : ℕ) : CState :=
  if s.flag then s
  else
    let a := u idx
    match a.throws with
    | none => ⟨a.cancels, s.slot, s.ran ++ [idx]⟩
    | some e => ⟨true, set_first_ex s.slot (some e), s.ran ++ [idx]⟩

/-- Sequential branch (concurrency.cpp:71-78): before each index the loop
checks the flag and breaks once it is set. -/
def seqRun (u : ℕ → UnitAct) (s : CState) : List ℕ → CState
  | [] => s
  | i :: rest => if s.flag then s else seqRun u (safe_call u s i) rest

/-- One wave: the spawned `safe_call`s execute in the serialisation order
given by the scheduler. -/
def runWave (u : ℕ → UnitAct) (s : CState) (order : List ℕ) : CState :=
  order.foldl (safe_call u) s

/-- Parallel branch (concurrency.cpp:80-96): the flag is checked before each
wave is launched; every wave is joined before the next starts. -/
def parRun (u : ℕ → UnitAct) (sched : List ℕ → List ℕ) (s : CState) :
    List (List ℕ) → CState
  | [] => s
  | w :: ws => if s.flag then s else parRun u sched (runWave u s (sched w)) ws

/-- Final state of the cancelable executor.  `initFlag` is the state of the
external `Cancellation` token on entry (`false` when absent or fresh). -/
def cancelableState (total concurrency : ℤ) (u : ℕ → UnitAct)
    (sched : List ℕ → List ℕ) (initFlag : Bool) : CState :=
  if total ≤ 0 then ⟨initFlag, none, []⟩
  else if concurrency ≤ 1 then
    seqRun u ⟨initFlag, none, []⟩ (List.range' 1 total.toNat)
  else
    parRun u sched ⟨initFlag, none, []⟩
      (wavesFrom concurrency.toNat total.toNat 1 total.toNat)

/-- `if (first_ex) std::rethrow_exception(first_ex)` (concurrency.cpp:98). -/
def rethrow (s : CState) : Except ℕ Unit :=
  match s.slot with
  | some e => Except.error e
  | none => Except.ok ()

/-- Full cancelable executor: final state plus the call outcome. -/
def for_each_index_batched_cancelable (total concurrency : ℤ)
    (u : ℕ → UnitAct) (sched : List ℕ → List ℕ) (initFlag : Bool) :
    CState × Except ℕ Unit :=
  (cancelableState total concurrency u sched initFlag,
   rethrow (cancelableState total concurrency u sched initFlag))

/-- The failure that is first in lock-acquisition order among those raised by
the units that ran. -/
def firstErr (u : ℕ → UnitAct) (ran : List ℕ) : Option ℕ :=
  (ran.filterMap (fun i => (u i).throws)).head?

/-! ### `ThreadPool` (src/utils/concurrency.cpp:103-199)

Tasks are modelled by identifiers; executing a task appends its identifier to
`executed`.  A worker iteration (concurrency.cpp:168-193) exits only when
`stop` is set *and* the queue is empty; otherwise it dequeues the front task
and runs it.  `worker_drain` iterates that loop until the queue is empty,
which is exactly what the workers do between teardown and join. -/

/-- Constructor (concurrency.cpp:104-113): `if (n <= 0) n = 1`. -/
def workerCount (n : ℤ) : ℤ :=
  if n ≤ 0 then 1 else n

structure PoolState where
  queue : List ℕ
  stop : Bool
  executed : List ℕ
deriving DecidableEq

/-- `submit` (concurrency.cpp:126-134): ignored after stop, else enqueue. -/
def pool_submit (s : PoolState) (t : ℕ) : PoolState :=
  if s.stop then s else ⟨s.queue ++ [t], s.stop, s.executed⟩

/-- Worker iterations of `worker_loop` (concurrency.cpp:168-193) until the
queue is empty: each iteration dequeues the front task and executes it. -/
def worker_drain (stop : Bool) (executed : List ℕ) : List ℕ → PoolState
  | [] => ⟨[], stop, executed⟩
  | t :: q => worker_drain stop (executed ++ [t]) q

def worker_loop (s : PoolState) : PoolState :=
  worker_drain s.stop s.executed s.queue

/-- Destructor (concurrency.cpp:116-124): set `stop`, wake the workers, join.
The joined workers run `worker_loop` until `stop ∧ queue = []` holds. -/
def pool_teardown (s : PoolState) : PoolState :=
  worker_loop ⟨s.queue, true, s.executed⟩

/-- `wait_idle` (concurrency.cpp:143-147) unblocks iff the queue is empty and
no worker is active (between iterations, none is). -/
def wait_idle_ready (s : PoolState) : Bool :=
  s.queue.isEmpty

/-! ### `aggregate_times` (src/usecases/aggregate.cpp:8-35) -/

structure Aggregation where
  min : ℚ
  avg : ℚ
  max : ℚ
  percentiles : List (ℤ × ℚ)
deriving DecidableEq

/-- The two final clamps of `pct_value` (aggregate.cpp:27-28):
`if (rank < 1) rank = 1; if (rank > n) rank = n`. -/
def clampRank (rank0 n : ℕ) : ℕ :=
  if rank0 < 1 then 1 else if rank0 > n then n else rank0

/-- `minmax_element` over the unsorted input (aggregate.cpp:13): the value of
the minimum element (0 on empty input, which the caller rules out). -/
def listMin : List ℚ → ℚ
  | [] => 0
  | t :: ts => ts.foldl min t

def listMax : List ℚ → ℚ
  | [] => 0
  | t :: ts => ts.foldl max t

/-- `pct_value` (aggregate.cpp:21-30): clamp the request to `[0,100]`,
compute `rank = (pc·n + 100 - 1) / 100` by ceiling integer division, clamp it
to `[1,n]`, and read the ascending-sorted data at `rank - 1` (0-based). -/
def pct_value (sorted : List ℚ) (p : ℤ) : ℚ :=
  if sorted.isEmpty then 0
  else
    sorted.getD
      (clampRank (((max 0 (min p 100)).toNat * sorted.length + 100 - 1) / 100)
        sorted.length - 1) 0

/-- `aggregate_times` (aggregate.cpp:8-35): early return on empty input; else
min/max from `minmax_element`, the arithmetic mean, and one percentile entry
per request, keyed by the verbatim request. -/
def aggregate_times (times : List ℚ) (pctl : List ℤ) : Aggregation :=
  if times.isEmpty then ⟨0, 0, 0, []⟩
  else
    ⟨listMin times,
     times.sum / (times.length : ℚ),
     listMax times,
     pctl.map (fun p => (p, pct_value (List.insertionSort (· ≤ ·) times) p))⟩

/-- Reference rank from the spec's words: for requested `p` clamped to
`[0,100]`, `rank = ceil(p/100 · n)` clamped to `[1,n]` (1-based). -/
def ref_rank (p : ℤ) (n : ℕ) : ℤ :=
  max 1 (min ⌈(((max 0 (min p 100) : ℤ) : ℚ) / 100) * n⌉ n)

/-- Reference aggregation, written from the spec's words (§4.6): empty input
gives all-zero results; otherwise min/max of the input (head/last of the
ascending sort), the arithmetic mean, and per request the element of the
ascending-sorted input at 1-based rank `ref_rank`. -/
def ref_aggregate (times : List ℚ) (pctl : List ℤ) : Aggregation :=
  if times = [] then ⟨0, 0, 0, []⟩
  else
    ⟨(List.insertionSort (· ≤ ·) times).headD 0,
     times.sum / (times.length : ℚ),
     (List.insertionSort (· ≤ ·) times).getLastD 0,
     pctl.map (fun p => (p, (List.insertionSort (· ≤ ·) times).getD
       ((ref_rank p times.length).toNat - 1) 0))⟩

/-! ## Helper lemmas -/

theorem wavesFrom_zero (c next total : ℕ) : wavesFrom c 0 next total = [] :=
  rfl

theorem wavesFrom_succ (c fuel next total : ℕ) :
    wavesFrom c (fuel + 1) next total =
      if next ≤ total then
        List.range' next (min c (total - (next - 1))) ::
          wavesFrom c fuel (next + min c (total - (next - 1))) total
      else [] := rfl

theorem wavesFrom_flatten (c : ℕ) (hc : 1 ≤ c) :
    ∀ (fuel next total : ℕ), 1 ≤ next → total + 1 ≤ next + fuel →
      (wavesFrom c fuel next total).flatten =
        List.range' next (total + 1 - next)
  | 0, next, total, _, hfuel => by
      rw [wavesFrom_zero]
      have : total + 1 - next = 0 := by omega
      rw [this, List.range'_zero]
      rfl
  | fuel + 1, next, total, hnext, hfuel => by
      rw [wavesFrom_succ]
      by_cases h : next ≤ total
      · rw [if_pos h, List.flatten_cons]
        set b := min c (total - (next - 1)) with hbdef
        have hb1 : 1 ≤ b := by omega
        have hble : b ≤ total + 1 - next := by omega
        have hrec := wavesFrom_flatten c hc fuel (next + b) total
          (by omega) (by omega)
        rw [hrec]
        rw [show total + 1 - (next + b) = (total + 1 - next) - b by omega]
        rw [List.range'_append_1 next b ((total + 1 - next) - b)]
        congr 1
        omega
      · rw [if_neg h]
        have : total + 1 - next = 0 := by omega
        rw [this, List.range'_zero]
        rfl

theorem flatten_map_singleton (l : List ℕ) :
    (l.map (fun i => [i])).flatten = l := by
  induction l with
  | nil => rfl
  | cons x xs ih => simpa using ih

theorem batchedIndices_seq (total concurrency : ℤ) (h0 : 0 < total)
    (hc : concurrency ≤ 1) :
    batchedIndices total concurrency = List.range' 1 total.toNat := by
  unfold batchedIndices for_each_index_batched
  rw [if_neg (by omega), if_pos hc]
  exact flatten_map_singleton _

theorem batchedIndices_par (total concurrency : ℤ) (h0 : 0 < total)
    (hc : 1 < concurrency) :
    batchedIndices total concurrency = List.range' 1 total.toNat := by
  unfold batchedIndices for_each_index_batched
  rw [if_neg (by omega), if_neg (by omega)]
  have := wavesFrom_flatten concurrency.toNat (by omega) total.toNat 1
    total.toNat (by omega) (by omega)
  rw [this, show total.toNat + 1 - 1 = total.toNat from rfl]

/-- All concurrency values: the flat invocation sequence is `1..total`. -/
theorem batchedIndices_eq (total concurrency : ℤ) (h0 : 0 < total) :
    batchedIndices total concurrency = List.range' 1 total.toNat := by
  by_cases hc : concurrency ≤ 1
  · exact batchedIndices_seq total concurrency h0 hc
  · exact batchedIndices_par total concurrency h0 (by omega)

theorem batched_total_nonpos (total concurrency : ℤ) (h0 : total ≤ 0) :
    for_each_index_batched total concurrency = [] := by
  unfold for_each_index_batched
  rw [if_pos h0]

/-- Every parallel wave is nonempty and holds at most `concurrency` indices. -/
theorem wavesFrom_length (c : ℕ) (hc : 1 ≤ c) :
    ∀ (fuel next total : ℕ), 1 ≤ next →
      ∀ w ∈ wavesFrom c fuel next total, 1 ≤ w.length ∧ w.length ≤ c
  | 0, _, _, _, w, hw => by rw [wavesFrom_zero] at hw; cases hw
  | fuel + 1, next, total, hnext, w, hw => by
      rw [wavesFrom_succ] at hw
      by_cases h : next ≤ total
      · rw [if_pos h, List.mem_cons] at hw
        rcases hw with rfl | hw
        · refine ⟨?_, ?_⟩
          · simp only [List.length_range']
            omega
          · simp only [List.length_range']
            omega
        · exact wavesFrom_length c hc fuel _ total (by omega) w hw
      · rw [if_neg h] at hw; cases hw

/-! ### Cancelable executor -/

theorem safe_call_flagged (u : ℕ → UnitAct) (s : CState) (i : ℕ)
    (h : s.flag = true) : safe_call u s i = s := by
  unfold safe_call
  rw [if_pos h]

theorem safe_call_clear_none (u : ℕ → UnitAct) (s : CState) (i : ℕ)
    (hf : s.flag = false) (ht : (u i).throws = none) :
    safe_call u s i = ⟨(u i).cancels, s.slot, s.ran ++ [i]⟩ := by
  unfold safe_call
  rw [if_neg (by simp [hf])]
  simp only [ht]

theorem safe_call_clear_some (u : ℕ → UnitAct) (s : CState) (i : ℕ) (e : ℕ)
    (hf : s.flag = false) (ht : (u i).throws = some e) :
    safe_call u s i = ⟨true, set_first_ex s.slot (some e), s.ran ++ [i]⟩ := by
  unfold safe_call
  rw [if_neg (by simp [hf])]
  simp only [ht]

theorem seqRun_nil (u : ℕ → UnitAct) (s : CState) : seqRun u s [] = s := rfl

theorem seqRun_cons (u : ℕ → UnitAct) (s : CState) (i : ℕ) (l : List ℕ) :
    seqRun u s (i :: l) =
      if s.flag then s else seqRun u (safe_call u s i) l := rfl

theorem parRun_nil (u : ℕ → UnitAct) (sched : List ℕ → List ℕ) (s : CState) :
    parRun u sched s [] = s := rfl

theorem parRun_cons (u : ℕ → UnitAct) (sched : List ℕ → List ℕ) (s : CState)
    (w : List ℕ) (ws : List (List ℕ)) :
    parRun u sched s (w :: ws) =
      if s.flag then s else parRun u sched (runWave u s (sched w)) ws := rfl

theorem seqRun_flagged (u : ℕ → UnitAct) (s : CState)
    (h : s.flag = true) : ∀ l, seqRun u s l = s
  | [] => rfl
  | _ :: _ => by rw [seqRun_cons, if_pos h]

theorem runWave_flagged (u : ℕ → UnitAct) :
    ∀ (l : List ℕ) (s : CState), s.flag = true → runWave u s l = s
  | [], _, _ => rfl
  | i :: l, s, h => by
      unfold runWave at *
      rw [List.foldl_cons, safe_call_flagged u s i h]
      exact runWave_flagged u l s h

theorem parRun_flagged (u : ℕ → UnitAct) (sched : List ℕ → List ℕ)
    (s : CState) (h : s.flag = true) : ∀ ws, parRun u sched s ws = s
  | [] => rfl
  | _ :: _ => by rw [parRun_cons, if_pos h]

theorem seqRun_append (u : ℕ → UnitAct) :
    ∀ (l₁ l₂ : List ℕ) (s : CState),
      seqRun u s (l₁ ++ l₂) = seqRun u (seqRun u s l₁) l₂
  | [], _, _ => rfl
  | i :: l₁, l₂, s => by
      rw [List.cons_append, seqRun_cons, seqRun_cons]
      by_cases h : s.flag = true
      · rw [if_pos h, if_pos h, seqRun_flagged u s h]
      · rw [if_neg h, if_neg h]
        exact seqRun_append u l₁ l₂ (safe_call u s i)

/-- The failure slot invariant maintained by every `safe_call`: the slot holds
exactly the first error (in lock order) among the units that ran, and a
non-empty slot forces the cancellation flag. -/
def CInv (u : ℕ → UnitAct) (s : CState) : Prop :=
  s.slot = firstErr u s.ran ∧ (s.slot ≠ none → s.flag = true)

theorem firstErr_append_none (u : ℕ → UnitAct) (ran : List ℕ) (i : ℕ)
    (h : (u i).throws = none) : firstErr u (ran ++ [i]) = firstErr u ran := by
  unfold firstErr
  rw [List.filterMap_append]
  rw [show List.filterMap (fun i => (u i).throws) [i] = [] by
    simp [List.filterMap, h]]
  rw [List.append_nil]

theorem firstErr_append_some (u : ℕ → UnitAct) (ran : List ℕ) (i : ℕ) (e : ℕ)
    (h : (u i).throws = some e) (hnone : firstErr u ran = none) :
    firstErr u (ran ++ [i]) = some e := by
  unfold firstErr at *
  rw [List.head?_eq_none_iff] at hnone
  rw [List.filterMap_append, hnone]
  simp [List.filterMap, h]

theorem safe_call_inv (u : ℕ → UnitAct) (s : CState) (i : ℕ)
    (h : CInv u s) : CInv u (safe_call u s i) := by
  obtain ⟨hslot, hflag⟩ := h
  by_cases hf : s.flag = true
  · rw [safe_call_flagged u s i hf]
    exact ⟨hslot, hflag⟩
  · have hf' : s.flag = false := by
      cases hfl : s.flag
      · rfl
      · exact absurd hfl hf
    have hnone : s.slot = none := by
      by_contra hne
      exact hf (hflag hne)
    rcases ht : (u i).throws with _ | e
    · rw [safe_call_clear_none u s i hf' ht]
      refine ⟨?_, ?_⟩
      · rw [firstErr_append_none u s.ran i ht]
        exact hslot
      · intro hne
        exact absurd hnone hne
    · have hfe : firstErr u s.ran = none := by rw [← hslot, hnone]
      rw [safe_call_clear_some u s i e hf' ht]
      refine ⟨?_, fun _ => rfl⟩
      rw [firstErr_append_some u s.ran i e ht hfe, hnone]
      rfl

theorem seqRun_inv (u : ℕ → UnitAct) :
    ∀ (l : List ℕ) (s : CState), CInv u s → CInv u (seqRun u s l)
  | [], _, h => h
  | i :: l, s, h => by
      rw [seqRun_cons]
      by_cases hf : s.flag = true
      · rw [if_pos hf]; exact h
      · rw [if_neg hf]
        exact seqRun_inv u l _ (safe_call_inv u s i h)

theorem runWave_inv (u : ℕ → UnitAct) :
    ∀ (l : List ℕ) (s : CState), CInv u s → CInv u (runWave u s l)
  | [], _, h => h
  | i :: l, s, h => by
      unfold runWave at *
      rw [List.foldl_cons]
      exact runWave_inv u l _ (safe_call_inv u s i h)

theorem parRun_inv (u : ℕ → UnitAct) (sched : List ℕ → List ℕ) :
    ∀ (ws : List (List ℕ)) (s : CState), CInv u s → CInv u (parRun u sched s ws)
  | [], _, h => h
  | w :: ws, s, h => by
      rw [parRun_cons]
      by_cases hf : s.flag = true
      · rw [if_pos hf]; exact h
      · rw [if_neg hf]
        exact parRun_inv u sched ws _ (runWave_inv u (sched w) s h)

theorem cancelable_inv (total concurrency : ℤ) (u : ℕ → UnitAct)
    (sched : List ℕ → List ℕ) :
    CInv u (cancelableState total concurrency u sched false) := by
  have h0 : CInv u ⟨false, none, []⟩ := ⟨rfl, by intro h; exact absurd rfl h⟩
  unfold cancelableState
  by_cases ht : total ≤ 0
  · rw [if_pos ht]; exact h0
  · rw [if_neg ht]
    by_cases hc : concurrency ≤ 1
    · rw [if_pos hc]; exact seqRun_inv u _ _ h0
    · rw [if_neg hc]; exact parRun_inv u sched _ _ h0

/-- No cancellation, no failure: the sequential loop runs every index and adds
it to the side-effect trace. -/
theorem seqRun_clean (u : ℕ → UnitAct) :
    ∀ (l : List ℕ) (s : CState),
      (∀ i ∈ l, (u i).cancels = false ∧ (u i).throws = none) →
      s.flag = false →
      seqRun u s l = ⟨false, s.slot, s.ran ++ l⟩
  | [], s, _, hf => by
      rw [List.append_nil, seqRun_nil]
      cases s with
      | mk f sl r => simp_all
  | i :: l, s, hcl, hf => by
      rw [seqRun_cons, if_neg (by simp [hf])]
      obtain ⟨hc, ht⟩ := hcl i (List.mem_cons_self i l)
      have hsc : safe_call u s i = ⟨false, s.slot, s.ran ++ [i]⟩ := by
        rw [safe_call_clear_none u s i hf ht, hc]
      rw [hsc]
      rw [seqRun_clean u l _ (fun j hj => hcl j (List.mem_cons_of_mem i hj))
        rfl]
      simp

/-- The single-wave shape when `concurrency` covers all of `1..total`. -/
theorem wavesFrom_single (c t fuel : ℕ) (hct : t ≤ c) (ht : 1 ≤ t)
    (hfuel : 1 ≤ fuel) : wavesFrom c fuel 1 t = [List.range' 1 t] := by
  cases fuel with
  | zero => omega
  | succ f =>
    rw [wavesFrom_succ, if_pos ht]
    rw [show min c (t - (1 - 1)) = t by omega]
    cases f with
    | zero => rw [wavesFrom_zero]
    | succ f' => rw [wavesFrom_succ, if_neg (by omega)]

/-! ### ThreadPool -/

theorem worker_drain_spec :
    ∀ (q : List ℕ) (stop : Bool) (ex : List ℕ),
      worker_drain stop ex q = ⟨[], stop, ex ++ q⟩
  | [], _, ex => by rw [List.append_nil]; rfl
  | t :: q, stop, ex => by
      show worker_drain stop (ex ++ [t]) q = _
      rw [worker_drain_spec q stop (ex ++ [t]), List.append_assoc]
      rfl

theorem pool_teardown_spec (s : PoolState) :
    pool_teardown s = ⟨[], true, s.executed ++ s.queue⟩ :=
  worker_drain_spec s.queue true s.executed

/-! ### Aggregator -/

theorem foldl_min_mem : ∀ (ts : List ℚ) (t : ℚ), ts.foldl min t ∈ t :: ts
  | [], _ => List.mem_singleton.mpr rfl
  | x :: xs, t => by
      rw [List.foldl_cons]
      rcases min_choice t x with h | h <;> rw [h]
      · have ih := foldl_min_mem xs t
        rcases List.mem_cons.mp ih with h' | h' <;>
          simp [List.mem_cons, h']
      · have ih := foldl_min_mem xs x
        rcases List.mem_cons.mp ih with h' | h' <;>
          simp [List.mem_cons, h']

theorem foldl_min_le : ∀ (ts : List ℚ) (t : ℚ), ∀ z ∈ t :: ts,
    ts.foldl min t ≤ z
  | [], t, z, hz => by
      have h : z = t := by simpa using hz
      rw [h]
      exact le_refl t
  | x :: xs, t, z, hz => by
      rw [List.foldl_cons]
      have ih := foldl_min_le xs (min t x)
      rcases List.mem_cons.mp hz with h1 | hz'
      · rw [h1]
        exact le_trans (ih (min t x) (List.mem_cons_self _ _))
          (min_le_left t x)
      · rcases List.mem_cons.mp hz' with h2 | hz''
        · rw [h2]
          exact le_trans (ih (min t x) (List.mem_cons_self _ _))
            (min_le_right t x)
        · exact ih z (List.mem_cons_of_mem _ hz'')

theorem foldl_max_mem : ∀ (ts : List ℚ) (t : ℚ), ts.foldl max t ∈ t :: ts
  | [], _ => List.mem_singleton.mpr rfl
  | x :: xs, t => by
      rw [List.foldl_cons]
      rcases max_choice t x with h | h <;> rw [h]
      · have ih := foldl_max_mem xs t
        rcases List.mem_cons.mp ih with h' | h' <;>
          simp [List.mem_cons, h']
      · have ih := foldl_max_mem xs x
        rcases List.mem_cons.mp ih with h' | h' <;>
          simp [List.mem_cons, h']

theorem foldl_max_ge : ∀ (ts : List ℚ) (t : ℚ), ∀ z ∈ t :: ts,
    z ≤ ts.foldl max t
  | [], t, z, hz => by
      have h : z = t := by simpa using hz
      rw [h]
      exact le_refl t
  | x :: xs, t, z, hz => by
      rw [List.foldl_cons]
      have ih := foldl_max_ge xs (max t x)
      rcases List.mem_cons.mp hz with h1 | hz'
      · rw [h1]
        exact le_trans (le_max_left t x)
          (ih (max t x) (List.mem_cons_self _ _))
      · rcases List.mem_cons.mp hz' with h2 | hz''
        · rw [h2]
          exact le_trans (le_max_right t x)
            (ih (max t x) (List.mem_cons_self _ _))
        · exact ih z (List.mem_cons_of_mem _ hz'')

theorem headD_mem {α : Type} [Inhabited α] :
    ∀ (l : List α), l ≠ [] → ∀ d : α, l.headD d ∈ l
  | [], h, _ => absurd rfl h
  | a :: _, _, _ => List.mem_cons_self a _

theorem sorted_headD_le (l : List ℚ) (hs : List.Sorted (· ≤ ·) l) (d : ℚ) :
    ∀ z ∈ l, l.headD d ≤ z := by
  cases l with
  | nil => intro z hz; cases hz
  | cons a l' =>
    intro z hz
    rcases List.mem_cons.mp hz with rfl | hz'
    · exact le_refl z
    · exact List.rel_of_sorted_cons hs z hz'

theorem getLastD_mem {α : Type} :
    ∀ (l : List α), l ≠ [] → ∀ d : α, l.getLastD d ∈ l
  | [], h, _ => absurd rfl h
  | a :: l', _, d => by
      rw [List.getLastD_cons]
      cases l' with
      | nil => exact List.mem_singleton.mpr rfl
      | cons b l'' =>
        exact List.mem_cons_of_mem a
          (getLastD_mem (b :: l'') (List.cons_ne_nil b l'') a)

theorem getLastD_irrel {α : Type} :
    ∀ (l : List α), l ≠ [] → ∀ d₁ d₂ : α, l.getLastD d₁ = l.getLastD d₂
  | [], h, _, _ => absurd rfl h
  | a :: l', _, d₁, d₂ => by rw [List.getLastD_cons, List.getLastD_cons]

theorem sorted_le_getLastD :
    ∀ (l : List ℚ), List.Sorted (· ≤ ·) l → ∀ (d : ℚ), ∀ z ∈ l,
      z ≤ l.getLastD d
  | [], _, _, z, hz => by cases hz
  | a :: l', hs, d, z, hz => by
      rw [List.getLastD_cons]
      rcases List.mem_cons.mp hz with rfl | hz'
      · cases l' with
        | nil => exact le_refl z
        | cons b l'' =>
          have hm := getLastD_mem (b :: l'') (List.cons_ne_nil b l'') z
          exact le_trans (le_refl z)
            (List.rel_of_sorted_cons hs _ hm)
      · exact sorted_le_getLastD l' (List.Sorted.of_cons hs) a z hz'

/-- `minmax_element`-style fold equals the head of the ascending sort. -/
theorem min_eq_sorted_headD (t : ℚ) (ts : List ℚ) :
    ts.foldl min t = (List.insertionSort (· ≤ ·) (t :: ts)).headD 0 := by
  set sorted := List.insertionSort (· ≤ ·) (t :: ts) with hsdef
  have hperm : sorted.Perm (t :: ts) := List.perm_insertionSort _ _
  have hsorted : List.Sorted (· ≤ ·) sorted := List.sorted_insertionSort _ _
  have hne : sorted ≠ [] := by
    intro h
    have := hperm.length_eq
    rw [h] at this
    simp at this
  have h1 : sorted.headD 0 ∈ t :: ts :=
    hperm.mem_iff.mp (headD_mem sorted hne 0)
  have h2 : ts.foldl min t ∈ sorted :=
    hperm.mem_iff.mpr (foldl_min_mem ts t)
  exact le_antisymm (foldl_min_le ts t _ h1) (sorted_headD_le sorted hsorted 0 _ h2)

/-- `minmax_element`-style fold equals the last entry of the ascending sort. -/
theorem max_eq_sorted_getLastD (t : ℚ) (ts : List ℚ) :
    ts.foldl max t = (List.insertionSort (· ≤ ·) (t :: ts)).getLastD 0 := by
  set sorted := List.insertionSort (· ≤ ·) (t :: ts) with hsdef
  have hperm : sorted.Perm (t :: ts) := List.perm_insertionSort _ _
  have hsorted : List.Sorted (· ≤ ·) sorted := List.sorted_insertionSort _ _
  have hne : sorted ≠ [] := by
    intro h
    have := hperm.length_eq
    rw [h] at this
    simp at this
  have h1 : sorted.getLastD 0 ∈ t :: ts :=
    hperm.mem_iff.mp (getLastD_mem sorted hne 0)
  have h2 : ts.foldl max t ∈ sorted :=
    hperm.mem_iff.mpr (foldl_max_mem ts t)
  exact le_antisymm (sorted_le_getLastD sorted hsorted 0 _ h2)
    (foldl_max_ge ts t _ h1)

/-- Ceiling division by 100 as computed with integer arithmetic in
`pct_value`. -/
theorem ceil_div_100 (a : ℕ) :
    ⌈(a : ℚ) / 100⌉ = (((a + 99) / 100 : ℕ) : ℤ) := by
  have hdm := Nat.div_add_mod (a + 99) 100
  have hmod : (a + 99) % 100 < 100 := Nat.mod_lt _ (by norm_num)
  set q := (a + 99) / 100 with hq
  have h1 : a ≤ 100 * q := by omega
  have h2 : 100 * q ≤ a + 99 := by omega
  have hub : ⌈(a : ℚ) / 100⌉ ≤ (q : ℤ) := by
    rw [Int.ceil_le]
    rw [div_le_iff₀ (by norm_num : (0:ℚ) < 100)]
    have : (a : ℚ) ≤ ((100 * q : ℕ) : ℚ) := by exact_mod_cast h1
    push_cast at this ⊢
    linarith
  have hlb : (q : ℤ) - 1 < ⌈(a : ℚ) / 100⌉ := by
    rw [Int.lt_ceil]
    rw [show (((q : ℤ) - 1 : ℤ) : ℚ) = (q : ℚ) - 1 by push_cast; ring]
    rw [lt_div_iff₀ (by norm_num : (0:ℚ) < 100)]
    have : ((100 * q : ℕ) : ℚ) ≤ (a : ℚ) + 99 := by exact_mod_cast h2
    push_cast at this ⊢
    linarith
  omega

/-- The integer rank computed by `pct_value` agrees with the spec's
`clamp(ceil(clamp(p,0,100)/100 · n), 1, n)`. -/
theorem pct_value_eq_ref (sorted : List ℚ) (p : ℤ) (hn : sorted ≠ []) :
    pct_value sorted p =
      sorted.getD ((ref_rank p sorted.length).toNat - 1) 0 := by
  unfold pct_value ref_rank
  rw [if_neg (by simp [List.isEmpty_iff, hn])]
  have hn1 : 1 ≤ sorted.length := List.length_pos.mpr hn
  set n := sorted.length with hndef
  set pc : ℤ := max 0 (min p 100) with hpcdef
  have hpc0 : 0 ≤ pc := le_max_left 0 _
  have hcast : ((pc.toNat : ℕ) : ℚ) = ((pc : ℤ) : ℚ) := by
    exact_mod_cast congrArg (fun z : ℤ => (z : ℚ)) (Int.toNat_of_nonneg hpc0)
  have hmul : ((pc : ℤ) : ℚ) / 100 * (n : ℚ) =
      ((pc.toNat * n : ℕ) : ℚ) / 100 := by
    rw [← hcast]
    push_cast
    ring
  rw [hmul, ceil_div_100 (pc.toNat * n)]
  congr 1
  rw [show pc.toNat * n + 100 - 1 = pc.toNat * n + 99 by omega]
  unfold clampRank
  set r0 := (pc.toNat * n + 99) / 100 with hr0
  split_ifs <;> omega

/-- `aggregate_times` computes exactly the spec's reference aggregation. -/
theorem aggregate_times_eq_ref (times : List ℚ) (pctl : List ℤ) :
    aggregate_times times pctl = ref_aggregate times pctl := by
  cases times with
  | nil => rfl
  | cons t ts =>
    unfold aggregate_times ref_aggregate
    rw [if_neg (by simp), if_neg (List.cons_ne_nil t ts)]
    have hne : List.insertionSort (· ≤ ·) (t :: ts) ≠ [] := by
      intro h
      have := List.length_insertionSort (· ≤ ·) (t :: ts)
      rw [h] at this
      simp at this
    have hlen : (List.insertionSort (· ≤ ·) (t :: ts)).length =
        (t :: ts).length := List.length_insertionSort _ _
    rw [show listMin (t :: ts) = ts.foldl min t from rfl,
      show listMax (t :: ts) = ts.foldl max t from rfl,
      min_eq_sorted_headD t ts, max_eq_sorted_getLastD t ts]
    congr 1
    apply List.map_congr_left
    intro p _
    rw [pct_value_eq_ref _ p hne, hlen]

/-- The whole aggregation depends only on the multiset of latencies. -/
theorem ref_aggregate_perm (t₁ t₂ : List ℚ) (pctl : List ℤ)
    (h : t₁.Perm t₂) : ref_aggregate t₁ pctl = ref_aggregate t₂ pctl := by
  by_cases h1 : t₁ = []
  · have h2 : t₂ = [] := by
      rw [h1] at h
      exact h.symm.eq_nil
    rw [h1, h2]
  · have h2 : t₂ ≠ [] := by
      intro he
      rw [he] at h
      exact h1 h.eq_nil
    unfold ref_aggregate
    rw [if_neg h1, if_neg h2]
    have hsort : List.insertionSort (· ≤ ·) t₁ = List.insertionSort (· ≤ ·) t₂ :=
      List.eq_of_perm_of_sorted
        ((List.perm_insertionSort _ t₁).trans
          (h.trans (List.perm_insertionSort _ t₂).symm))
        (List.sorted_insertionSort _ t₁) (List.sorted_insertionSort _ t₂)
    rw [hsort, h.sum_eq, h.length_eq]

/-! ### Branch-equivalence lemmas for the executors -/

theorem cancelableState_precancelled (total concurrency : ℤ)
    (u : ℕ → UnitAct) (sched : List ℕ → List ℕ) :
    cancelableState total concurrency u sched true = ⟨true, none, []⟩ := by
  unfold cancelableState
  by_cases ht : total ≤ 0
  · rw [if_pos ht]
  · rw [if_neg ht]
    by_cases hc : concurrency ≤ 1
    · rw [if_pos hc]
      exact seqRun_flagged u _ rfl _
    · rw [if_neg hc]
      exact parRun_flagged u sched _ rfl _

theorem for_each_seq_eq (total concurrency : ℤ) (hc : concurrency ≤ 1) :
    for_each_index_batched total concurrency =
      for_each_index_batched total 1 := by
  unfold for_each_index_batched
  by_cases ht : total ≤ 0
  · rw [if_pos ht, if_pos ht]
  · rw [if_neg ht, if_neg ht, if_pos hc, if_pos (le_refl (1:ℤ))]

theorem for_each_over_eq (total concurrency : ℤ)
    (hlt : total < concurrency) :
    for_each_index_batched total concurrency =
      for_each_index_batched total total := by
  unfold for_each_index_batched
  by_cases ht : total ≤ 0
  · rw [if_pos ht, if_pos ht]
  · rw [if_neg ht, if_neg ht, if_neg (by omega : ¬ concurrency ≤ 1)]
    rw [wavesFrom_single concurrency.toNat total.toNat total.toNat
      (by omega) (by omega) (by omega)]
    by_cases h2 : total ≤ 1
    · rw [if_pos h2]
      rw [show total.toNat = 1 by omega]
      rfl
    · rw [if_neg h2]
      rw [wavesFrom_single total.toNat total.toNat total.toNat
        (le_refl _) (by omega) (by omega)]

theorem cancelableState_seq_eq (total concurrency : ℤ) (u : ℕ → UnitAct)
    (sched : List ℕ → List ℕ) (initFlag : Bool) (hc : concurrency ≤ 1) :
    cancelableState total concurrency u sched initFlag =
      cancelableState total 1 u sched initFlag := by
  unfold cancelableState
  by_cases ht : total ≤ 0
  · rw [if_pos ht, if_pos ht]
  · rw [if_neg ht, if_neg ht, if_pos hc, if_pos (le_refl (1:ℤ))]

theorem cancelableState_over_eq (total concurrency : ℤ) (u : ℕ → UnitAct)
    (sched : List ℕ → List ℕ) (initFlag : Bool)
    (hperm : ∀ w, (sched w).Perm w) (hlt : total < concurrency) :
    cancelableState total concurrency u sched initFlag =
      cancelableState total total u sched initFlag := by
  unfold cancelableState
  by_cases ht : total ≤ 0
  · rw [if_pos ht, if_pos ht]
  · rw [if_neg ht, if_neg ht, if_neg (by omega : ¬ concurrency ≤ 1)]
    rw [wavesFrom_single concurrency.toNat total.toNat total.toNat
      (by omega) (by omega) (by omega)]
    by_cases h2 : total ≤ 1
    · rw [if_pos h2]
      rw [show total.toNat = 1 by omega]
      rw [show List.range' 1 1 = [1] from rfl]
      rw [parRun_cons, seqRun_cons]
      rw [List.perm_singleton.mp (hperm [1])]
      cases initFlag with
      | false =>
        rw [if_neg (by simp), if_neg (by simp)]
        rfl
      | true =>
        rw [if_pos rfl, if_pos rfl]
    · rw [if_neg h2]
      rw [wavesFrom_single total.toNat total.toNat total.toNat
        (le_refl _) (by omega) (by omega)]

/-! ## Claims -/

/-- C1: for every `total > 0` and every concurrency (0 and negatives
included) the batched executor invokes the unit of work exactly `total`
times, once for each index in `1..total`, in ascending wave order; with
`concurrency ≥ 2` every wave is nonempty and holds at most `concurrency`
indices; for `total ≤ 0` nothing is launched and the call is a no-op. -/
theorem claim_C1_batched_each_index_once (total concurrency : ℤ) :
    (0 < total →
      batchedIndices total concurrency = List.range' 1 total.toNat) ∧
    (total ≤ 0 → for_each_index_batched total concurrency = []) ∧
    (1 < concurrency → ∀ w ∈ for_each_index_batched total concurrency,
      1 ≤ w.length ∧ w.length ≤ concurrency.toNat) := by
  refine ⟨batchedIndices_eq total concurrency,
    batched_total_nonpos total concurrency, ?_⟩
  intro hc w hw
  unfold for_each_index_batched at hw
  by_cases ht : total ≤ 0
  · rw [if_pos ht] at hw
    cases hw
  · rw [if_neg ht, if_neg (by omega : ¬ concurrency ≤ 1)] at hw
    exact wavesFrom_length concurrency.toNat (by omega) total.toNat 1
      total.toNat (le_refl 1) w hw

/-- Witness for C1 at `total = 5, concurrency = 2` and `total = -3`. -/
theorem claim_C1_witness :
    batchedIndices 5 2 = List.range' 1 5 ∧
    for_each_index_batched (-3) 4 = [] ∧
    (1 ≤ ([1, 2] : List ℕ).length ∧
      ([1, 2] : List ℕ).length ≤ (2 : ℤ).toNat) :=
  ⟨(claim_C1_batched_each_index_once 5 2).1 (by decide),
   (claim_C1_batched_each_index_once (-3) 4).2.1 (by decide),
   (claim_C1_batched_each_index_once 5 2).2.2 (by decide) [1, 2] (by decide)⟩

/-- C2 (as stated, refuted): a task still queued (never dequeued) when the
pool destructor runs is discarded and never executed.  The counterexample: a
pool holding one queued task `7` at teardown still executes it, because a
worker only exits once `stop` is set *and* the queue is empty. -/
theorem claim_C2_counterexample :
    ¬ (∀ (s : PoolState) (t : ℕ), t ∈ s.queue →
        t ∉ (pool_teardown s).executed) := by
  intro h
  exact h ⟨[7], false, []⟩ 7 (by decide) (by decide)

/-- C2 (amended): tasks still queued when the destructor runs are drained and
executed by the workers before they exit; only submissions arriving after the
stop signal are discarded. -/
theorem claim_C2_amended_teardown_drains (s : PoolState) :
    (pool_teardown s).executed = s.executed ++ s.queue ∧
    (pool_teardown s).queue = [] ∧
    (∀ t, pool_submit ⟨s.queue, true, s.executed⟩ t =
      ⟨s.queue, true, s.executed⟩) := by
  refine ⟨?_, ?_, fun t => ?_⟩
  · rw [pool_teardown_spec s]
  · rw [pool_teardown_spec s]
  · unfold pool_submit
    rw [if_pos rfl]

/-- C3: if units of work throw, exactly one failure — the first in lock
acquisition order — is captured (`set_first_ex` never overwrites a stored
failure), the cancellation flag is set, and that single failure is the call
outcome; if no unit throws the call returns normally. -/
theorem claim_C3_first_failure_wins (total concurrency : ℤ)
    (u : ℕ → UnitAct) (sched : List ℕ → List ℕ) :
    (∀ e, firstErr u (for_each_index_batched_cancelable total concurrency u
        sched false).1.ran = some e →
      (for_each_index_batched_cancelable total concurrency u sched
        false).1.slot = some e ∧
      (for_each_index_batched_cancelable total concurrency u sched
        false).1.flag = true ∧
      (for_each_index_batched_cancelable total concurrency u sched
        false).2 = Except.error e) ∧
    (firstErr u (for_each_index_batched_cancelable total concurrency u sched
        false).1.ran = none →
      (for_each_index_batched_cancelable total concurrency u sched
        false).1.slot = none ∧
      (for_each_index_batched_cancelable total concurrency u sched
        false).2 = Except.ok ()) ∧
    (∀ (e0 : ℕ) (ep : Option ℕ), set_first_ex (some e0) ep = some e0) := by
  obtain ⟨hslot, hflag⟩ := cancelable_inv total concurrency u sched
  refine ⟨?_, ?_, fun e0 ep => by cases ep <;> rfl⟩
  · intro e he
    have h1 : (cancelableState total concurrency u sched false).slot =
        some e := by
      rw [hslot]
      exact he
    refine ⟨h1, hflag (by rw [h1]; exact Option.some_ne_none e), ?_⟩
    show rethrow (cancelableState total concurrency u sched false) = _
    unfold rethrow
    rw [h1]
  · intro he
    have h1 : (cancelableState total concurrency u sched false).slot =
        none := by
      rw [hslot]
      exact he
    refine ⟨h1, ?_⟩
    show rethrow (cancelableState total concurrency u sched false) = _
    unfold rethrow
    rw [h1]

/-- Witness for C3: sequential run of 3 units where unit 2 throws error 7. -/
theorem claim_C3_witness :
    (for_each_index_batched_cancelable 3 1
      (fun i => ⟨false, if i = 2 then some 7 else none⟩) id
      false).1.slot = some 7 ∧
    (for_each_index_batched_cancelable 3 1
      (fun i => ⟨false, if i = 2 then some 7 else none⟩) id
      false).2 = Except.error 7 := by
  have h := (claim_C3_first_failure_wins 3 1
    (fun i => ⟨false, if i = 2 then some 7 else none⟩) id).1 7 (by decide)
  exact ⟨h.1, h.2.2⟩

/-- C4: `aggregate_times` equals the reference aggregation stated by the
spec: zero results on empty input regardless of the request list; otherwise
min/max of the input, the arithmetic mean, and per request (order and
duplicates preserved, key verbatim) the ascending-sorted element at 1-based
rank `clamp(ceil(clamp(p,0,100)/100 · n), 1, n)`. -/
theorem claim_C4_aggregate_matches_reference (times : List ℚ)
    (pctl : List ℤ) :
    aggregate_times times pctl = ref_aggregate times pctl :=
  aggregate_times_eq_ref times pctl

/-- C5: with a pre-cancelled external token, no unit of work runs and the
cancelable executor returns normally, for every total and concurrency. -/
theorem claim_C5_precancelled_runs_nothing (total concurrency : ℤ)
    (u : ℕ → UnitAct) (sched : List ℕ → List ℕ) :
    (for_each_index_batched_cancelable total concurrency u sched
      true).1.ran = [] ∧
    (for_each_index_batched_cancelable total concurrency u sched
      true).2 = Except.ok () := by
  unfold for_each_index_batched_cancelable
  rw [cancelableState_precancelled total concurrency u sched]
  exact ⟨rfl, rfl⟩

/-- C6: in sequential mode, when the unit at index `k` requests cancellation
after its own side effects and no earlier unit cancels or throws, exactly the
units `1..k` run. -/
theorem claim_C6_seq_cancel_at_k (total concurrency : ℤ) (u : ℕ → UnitAct)
    (sched : List ℕ → List ℕ) (k : ℕ) (hc : concurrency ≤ 1) (hk1 : 1 ≤ k)
    (hk2 : (k : ℤ) ≤ total)
    (hbefore : ∀ i, 1 ≤ i → i < k →
      (u i).cancels = false ∧ (u i).throws = none)
    (hkc : (u k).cancels = true) (hkt : (u k).throws = none) :
    (for_each_index_batched_cancelable total concurrency u sched
      false).1.ran = List.range' 1 k := by
  show (cancelableState total concurrency u sched false).ran = _
  unfold cancelableState
  rw [if_neg (by omega : ¬ total ≤ 0), if_pos hc]
  have hsplit : List.range' 1 total.toNat =
      List.range' 1 (k - 1) ++ List.range' k (total.toNat - (k - 1)) := by
    have happ := List.range'_append_1 1 (k - 1) (total.toNat - (k - 1))
    rw [show 1 + (k - 1) = k by omega] at happ
    rw [happ]
    congr 1
    omega
  rw [hsplit, seqRun_append]
  rw [seqRun_clean u (List.range' 1 (k - 1)) ⟨false, none, []⟩
    (fun i hi => hbefore i (List.mem_range'_1.mp hi).1
      (by have := (List.mem_range'_1.mp hi).2; omega)) rfl]
  rw [show total.toNat - (k - 1) = (total.toNat - k) + 1 by omega,
    List.range'_succ]
  rw [seqRun_cons, if_neg (by simp)]
  rw [safe_call_clear_none u _ k rfl hkt, hkc]
  rw [seqRun_flagged u _ rfl]
  show ([] ++ List.range' 1 (k - 1)) ++ [k] = _
  rw [List.nil_append]
  have happ2 := List.range'_append_1 1 (k - 1) 1
  rw [show 1 + (k - 1) = k by omega] at happ2
  rw [show List.range' k 1 = [k] from rfl] at happ2
  rw [happ2]

/-- Witness for C6: 5 sequential units, unit 3 requests cancellation. -/
theorem claim_C6_witness :
    (for_each_index_batched_cancelable 5 1 (fun i => ⟨i == 3, none⟩) id
      false).1.ran = List.range' 1 3 :=
  claim_C6_seq_cancel_at_k 5 1 (fun i => ⟨i == 3, none⟩) id 3 (by decide)
    (by decide) (by decide)
    (fun i _ h2 => ⟨by simp [show i ≠ 3 from by omega], rfl⟩) rfl rfl

/-- C7: `concurrency ≤ 1` (0 and negatives included) behaves exactly like
`concurrency = 1`, and `concurrency > total` exactly like
`concurrency = total` (one wave of `total` units), for both the plain and the
cancelable batched executor. -/
theorem claim_C7_degenerate_concurrency (total concurrency : ℤ)
    (u : ℕ → UnitAct) (sched : List ℕ → List ℕ) (initFlag : Bool)
    (hperm : ∀ w, (sched w).Perm w) :
    (concurrency ≤ 1 →
      for_each_index_batched total concurrency =
        for_each_index_batched total 1 ∧
      for_each_index_batched_cancelable total concurrency u sched initFlag =
        for_each_index_batched_cancelable total 1 u sched initFlag) ∧
    (total < concurrency →
      for_each_index_batched total concurrency =
        for_each_index_batched total total ∧
      for_each_index_batched_cancelable total concurrency u sched initFlag =
        for_each_index_batched_cancelable total total u sched initFlag) := by
  constructor
  · intro hc
    refine ⟨for_each_seq_eq total concurrency hc, ?_⟩
    unfold for_each_index_batched_cancelable
    rw [cancelableState_seq_eq total concurrency u sched initFlag hc]
  · intro hlt
    refine ⟨for_each_over_eq total concurrency hlt, ?_⟩
    unfold for_each_index_batched_cancelable
    rw [cancelableState_over_eq total concurrency u sched initFlag hperm hlt]

/-- Witness for C7 at `(total,concurrency) = (3,0)` and `(2,5)`. -/
theorem claim_C7_witness :
    for_each_index_batched 3 0 = for_each_index_batched 3 1 ∧
    for_each_index_batched_cancelable 3 0 (fun _ => ⟨false, none⟩) id false =
      for_each_index_batched_cancelable 3 1 (fun _ => ⟨false, none⟩) id
        false ∧
    for_each_index_batched 2 5 = for_each_index_batched 2 2 ∧
    for_each_index_batched_cancelable 2 5 (fun _ => ⟨false, none⟩) id false =
      for_each_index_batched_cancelable 2 2 (fun _ => ⟨false, none⟩) id
        false := by
  have h1 := (claim_C7_degenerate_concurrency 3 0 (fun _ => ⟨false, none⟩)
    id false (fun w => List.Perm.refl w)).1 (by decide)
  have h2 := (claim_C7_degenerate_concurrency 2 5 (fun _ => ⟨false, none⟩)
    id false (fun w => List.Perm.refl w)).2 (by decide)
  exact ⟨h1.1, h1.2, h2.1, h2.2⟩

/-- C8: the aggregation of permuted latency lists is identical — the result
depends only on the multiset of latencies. -/
theorem claim_C8_aggregate_perm_invariant (t₁ t₂ : List ℚ) (pctl : List ℤ)
    (h : t₁.Perm t₂) :
    aggregate_times t₁ pctl = aggregate_times t₂ pctl := by
  rw [aggregate_times_eq_ref, aggregate_times_eq_ref]
  exact ref_aggregate_perm t₁ t₂ pctl h

/-- Witness for C8: `[1,2]` against its permutation `[2,1]`. -/
theorem claim_C8_witness :
    aggregate_times [1, 2] [50] = aggregate_times [2, 1] [50] :=
  claim_C8_aggregate_perm_invariant [1, 2] [2, 1] [50]
    (List.Perm.swap 2 1 [])

/-- C9: a non-positive thread count is clamped to one worker — the pool never
ends up with zero workers, so plain tasks submitted before teardown still all
execute and `wait_idle` still unblocks. -/
theorem claim_C9_thread_count_clamped (n : ℤ) (q : List ℕ) (hn : n ≤ 0) :
    workerCount n = 1 ∧ 1 ≤ workerCount n ∧
    (worker_loop ⟨q, false, []⟩).executed = q ∧
    wait_idle_ready (worker_loop ⟨q, false, []⟩) = true := by
  refine ⟨?_, ?_, ?_, ?_⟩
  · unfold workerCount
    rw [if_pos hn]
  · unfold workerCount
    rw [if_pos hn]
  · show (worker_drain false [] q).executed = q
    rw [worker_drain_spec q false []]
    rfl
  · show wait_idle_ready (worker_drain false [] q) = true
    rw [worker_drain_spec q false []]
    rfl

/-- Witness for C9 at `n = -2` with two queued tasks. -/
theorem claim_C9_witness :
    workerCount (-2) = 1 ∧ 1 ≤ workerCount (-2) ∧
    (worker_loop ⟨[4, 5], false, []⟩).executed = [4, 5] ∧
    wait_idle_ready (worker_loop ⟨[4, 5], false, []⟩) = true :=
  claim_C9_thread_count_clamped (-2) [4, 5] (by decide)

/-- C10: every unit re-checks the cancellation flag at its own entry: a
flagged state makes `safe_call` a no-op, and inside an already-launched wave
all units serialised after the flag is set are skipped. -/
theorem claim_C10_per_unit_guard (u : ℕ → UnitAct) :
    (∀ (s : CState) (i : ℕ), s.flag = true → safe_call u s i = s) ∧
    (∀ (s : CState) (o₁ o₂ : List ℕ), (runWave u s o₁).flag = true →
      runWave u s (o₁ ++ o₂) = runWave u s o₁) := by
  refine ⟨safe_call_flagged u, ?_⟩
  intro s o₁ o₂ h
  show (o₁ ++ o₂).foldl (safe_call u) s = _
  rw [List.foldl_append]
  exact runWave_flagged u o₂ _ h

/-- Witness for C10 on a flagged state. -/
theorem claim_C10_witness :
    safe_call (fun _ => ⟨false, none⟩) ⟨true, none, []⟩ 1 =
      ⟨true, none, []⟩ ∧
    runWave (fun _ => ⟨false, none⟩) ⟨true, none, []⟩ ([] ++ [2]) =
      runWave (fun _ => ⟨false, none⟩) ⟨true, none, []⟩ [] :=
  ⟨(claim_C10_per_unit_guard (fun _ => ⟨false, none⟩)).1 ⟨true, none, []⟩ 1
    rfl,
   (claim_C10_per_unit_guard (fun _ => ⟨false, none⟩)).2 ⟨true, none, []⟩ []
    [2] rfl⟩

end WQ
